import Mathlib

/-!
# WinCleanCli — verification of the scan/clean core

A shallow embedding of the scan/clean core of the WinCleanCli repository
(TypeScript), together with proofs and refutations of the specification
claims.  Each definition is translated from the named source file; where a
component of the repository is not available in the source snapshot, its
definition is marked `Modelled from the spec:` or modelled from the
repository's plan document, as stated in its doc comment.

Conventions used throughout:
* JavaScript numbers that hold byte counts or timestamps are modelled as
  `Nat` / `Int` (the code only adds and compares them).
* Asynchronous filesystem calls are modelled by explicit oracles (records
  of the values the calls would return) and by traces of emitted actions.
* Recursive traversals over modelled directory trees take an explicit
  `fuel` argument so that every function is structurally recursive and
  kernel-computable; all theorems hold for every fuel value, since
  exhausting fuel only truncates a traversal.
-/

namespace WinCleanCli

/-! ## Windows path model (`src/utils/paths.ts`)

`isSystemPath` and `expandPath` call Node's `path.win32` helpers
(`normalize`, `resolve`).  Those helpers are modelled below for
drive-letter and relative paths (UNC and device-namespace prefixes are
not used by the repository's path constants).
-/

/-- A Windows path separator, as treated by `path.win32` (`\` or `/`). -/
def isSep (c : Char) : Bool := c = '\\' || c = '/'

/-- Splits a character list into path components at separators. -/
def splitComps : List Char → List (List Char)
  | [] => [[]]
  | c :: cs =>
    if isSep c then [] :: splitComps cs
    else match splitComps cs with
      | [] => [[c]]
      | comp :: rest => (c :: comp) :: rest

/-- Splits off a leading drive designator (`X:`), as `path.win32` does for
drive-letter paths. -/
def splitDrive : List Char → List Char × List Char
  | a :: b :: rest =>
    if a.isAlpha = true ∧ b = ':' then ([a, b], rest) else ([], a :: b :: rest)
  | cs => ([], cs)

/-- Resolves `.` and `..` components the way `path.win32.normalize` does:
`.` and empty components vanish; `..` pops the previous component, and a
`..` with nothing to pop is kept only for relative paths (`allowAbove`).
The accumulator holds the output components in reverse. -/
def resolveDots (allowAbove : Bool) : List (List Char) → List (List Char) → List (List Char)
  | acc, [] => acc.reverse
  | acc, c :: rest =>
    if c = [] || c = ['.'] then resolveDots allowAbove acc rest
    else if c = ['.', '.'] then
      match acc with
      | p :: acc' =>
        if p = ['.', '.'] then resolveDots allowAbove (c :: p :: acc') rest
        else resolveDots allowAbove acc' rest
      | [] => if allowAbove then resolveDots allowAbove [c] rest else resolveDots allowAbove [] rest
    else resolveDots allowAbove (c :: acc) rest

/-- Whether a character list starts with a path separator. -/
def headIsSep : List Char → Bool
  | c :: _ => isSep c
  | [] => false

/-- The reassembly step of `path.win32.normalize`, applied to the drive
designator and the remaining characters: record absoluteness, resolve
dots, and re-join with `\`. -/
def normalizeBody (drive rest : List Char) : String :=
  let abs := headIsSep rest
  let comps := resolveDots (!abs) [] (splitComps rest)
  let body := List.intercalate ['\\'] comps
  let tail := if body.isEmpty && !abs then ['.'] else body
  ⟨drive ++ (if abs then ['\\'] else []) ++ tail⟩

/-- Modelled from Node `path.win32.normalize` for drive-letter and relative
paths. -/
def normalizeWin (p : String) : String :=
  normalizeBody (splitDrive p.toList).1 (splitDrive p.toList).2

/-- Modelled from Node `path.win32.isAbsolute`: a path is absolute when it
starts with a separator, optionally after a drive designator. -/
def isAbsoluteWin (p : String) : Bool :=
  headIsSep (splitDrive p.toList).2

/-- Modelled from Node `path.win32.resolve` applied to a single argument
with the process working directory `cwd`: an absolute argument is just
normalized, a relative one is joined onto `cwd` first.  Drive-relative
arguments (`C:foo`) are not modelled. -/
def resolveWin (cwd p : String) : String :=
  if isAbsoluteWin p then normalizeWin p
  else normalizeWin (cwd ++ "\\" ++ p)

/-- ASCII lower-casing of a string, as `String.prototype.toLowerCase`
behaves on the ASCII path constants involved. -/
def toLowerStr (s : String) : String := ⟨s.toList.map Char.toLower⟩

/-- `String.prototype.startsWith q` on character lists. -/
def startsWithChars : List Char → List Char → Bool
  | _, [] => true
  | [], _ :: _ => false
  | a :: as, b :: bs => a = b && startsWithChars as bs

/-- `String.prototype.startsWith`. -/
def strStartsWith (s q : String) : Bool := startsWithChars s.toList q.toList

/-- The static system-path denylist of `isSystemPath`
(`src/utils/paths.ts:80-89`), already lower-case as in the source. -/
def systemPathsList : List String :=
  [ "c:\\windows"
  , "c:\\program files"
  , "c:\\program files (x86)"
  , "c:\\programdata"
  , "c:\\$recycle.bin"
  , "c:\\system volume information"
  , "c:\\recovery"
  , "c:\\boot" ]

/-- `isSystemPath` (`src/utils/paths.ts:77-92`): normalize, lower-case, and
test the denylist entries as string heads. -/
def isSystemPath (targetPath : String) : Bool :=
  let normalized := toLowerStr (normalizeWin targetPath)
  systemPathsList.any (fun p => strStartsWith normalized p)

/-- The tilde expansion step of `expandPath`
(`src/utils/paths.ts:57-60`): `inputPath.replace('~', HOME)` guarded by
`startsWith('~')`, so the first occurrence — position 0 — is replaced. -/
def tildeExpand (home inputPath : String) : String :=
  if strStartsWith inputPath "~" then home ++ ⟨inputPath.toList.drop 1⟩
  else inputPath

/-- `expandPath` (`src/utils/paths.ts:56-70`): expand `~`, resolve and
normalize, and throw when the result is a protected system path.  The
thrown `Error` is modelled by `Except.error` carrying its message. -/
def expandPath (home cwd inputPath : String) : Except String String :=
  if isSystemPath (normalizeWin (resolveWin cwd (tildeExpand home inputPath))) then
    .error ("Unsafe path detected: " ++ inputPath ++ " resolves to protected system path")
  else
    .ok (normalizeWin (resolveWin cwd (tildeExpand home inputPath)))

example : isSystemPath "C:\\Windows\\System32\\x" = true := by decide
example : isSystemPath "C:\\Users\\test" = false := by decide
example : isSystemPath "c:\\WINDOWS\\system32\\TEST" = true := by decide
example : isSystemPath "D:\\Projects\\test" = false := by decide
example : normalizeWin "C:\\Users\\..\\Windows\\.\\x" = "C:\\Windows\\x" := by decide
example : (expandPath "C:\\Users\\u" "C:\\Users\\u" "~\\x").toOption = some "C:\\Users\\u\\x" := by
  decide
example : (expandPath "C:\\Users\\u" "C:\\Users\\u" "C:\\Windows\\System32").isOk = false := by
  decide

/-! ## Error classification (`src/utils/config.ts:228-348`) -/

/-- The error taxonomy of `ErrorCode` (`src/utils/config.ts:228-235`). -/
inductive ErrorCode
  | PERMISSION_DENIED
  | FILE_NOT_FOUND
  | FILE_LOCKED
  | PATH_TOO_LONG
  | DISK_FULL
  | TIMEOUT
  | UNKNOWN
deriving DecidableEq

/-- `ScannerError` (`src/utils/config.ts:237-242`); the `originalError`
object reference is not modelled. -/
structure ScannerError where
  code : ErrorCode
  message : String
  path : Option String
deriving DecidableEq

/-- The input of `classifyError`: a thrown value, which is either an
`Error` carrying an optional Node `errno` code and a message, or some
other value rendered by `String(error)`. -/
inductive ThrownValue
  | errorObj (code : Option String) (message : String)
  | other (rendered : String)
deriving DecidableEq

/-- `classifyError` (`src/utils/config.ts:250-315`): map a Node error code
to the standardized taxonomy. -/
def classifyError (error : ThrownValue) (path : Option String) : ScannerError :=
  match error with
  | .errorObj code message =>
    match code with
    | some "EACCES" => ⟨.PERMISSION_DENIED, "Access denied", path⟩
    | some "EPERM" => ⟨.PERMISSION_DENIED, "Access denied", path⟩
    | some "ENOENT" => ⟨.FILE_NOT_FOUND, "File or directory not found", path⟩
    | some "EBUSY" => ⟨.FILE_LOCKED, "File or directory is in use", path⟩
    | some "ENOTEMPTY" => ⟨.FILE_LOCKED, "File or directory is in use", path⟩
    | some "ENAMETOOLONG" => ⟨.PATH_TOO_LONG, "Path exceeds maximum length", path⟩
    | some "ENOSPC" => ⟨.DISK_FULL, "No space left on device", path⟩
    | some "ETIMEDOUT" => ⟨.TIMEOUT, "Operation timed out", path⟩
    | _ => ⟨.UNKNOWN, message, path⟩
  | .other rendered => ⟨.UNKNOWN, rendered, path⟩

/-! ## Removal executor (`src/utils/fs.ts:194-236`) -/

/-- `CleanableItem` (`src/types.ts`, as used by `fs.ts`): `contentHash` is
only populated by the duplicate detector and is not read here. -/
structure CleanableItem where
  path : String
  size : Nat
  name : String
  isDirectory : Bool
  modifiedAt : Option Int
deriving DecidableEq

/-- Observable side effects of the removal executor.  `rm` records that
`rm(path, {recursive: true, force: true})` was issued (whether or not it
then threw); `warn` records the `console.warn` for a skipped system path;
`progress` records an `onProgress(current, total, item)` call; `classify`
would record a `classifyError` call (the executor never makes one). -/
inductive FsAction
  | warn (path : String)
  | rm (path : String)
  | progress (current total : Nat) (path : String)
  | classify (err : ScannerError)
deriving DecidableEq

/-- Whether the `rm` issued for `path` succeeds; models the behavior of the
underlying filesystem for this run. -/
def RmOracle := String → Bool

/-- `removeItem` (`src/utils/fs.ts:194-211`): skip protected system paths,
succeed immediately on dry runs, otherwise issue `rm` and report whether
it succeeded.  Returns the boolean result together with the emitted
actions. -/
def removeItem (rmOk : RmOracle) (path : String) (dryRun : Bool) :
    Bool × List FsAction :=
  if isSystemPath path then (false, [.warn path])
  else if dryRun then (true, [])
  else if rmOk path then (true, [.rm path]) else (false, [.rm path])

/-- The result record of `removeItems` (`src/utils/fs.ts:217`). -/
structure RemoveSummary where
  success : Nat
  failed : Nat
  freedSpace : Nat
deriving DecidableEq

/-- The loop of `removeItems` (`src/utils/fs.ts:222-233`), carrying the
1-based progress counter. -/
def removeItemsGo (rmOk : RmOracle) (dryRun : Bool) (total : Nat) :
    List CleanableItem → Nat → RemoveSummary × List FsAction
  | [], _ => (⟨0, 0, 0⟩, [])
  | item :: rest, i =>
    let r := removeItem rmOk item.path dryRun
    let s := removeItemsGo rmOk dryRun total rest (i + 1)
    (⟨ s.1.success + (if r.1 then 1 else 0)
     , s.1.failed + (if r.1 then 0 else 1)
     , s.1.freedSpace + (if r.1 then item.size else 0)⟩
     , .progress (i + 1) total item.path :: r.2 ++ s.2)

/-- `removeItems` (`src/utils/fs.ts:213-236`). -/
def removeItems (rmOk : RmOracle) (items : List CleanableItem) (dryRun : Bool) :
    RemoveSummary × List FsAction :=
  removeItemsGo rmOk dryRun items.length items 0

/-- An item counts as removed exactly when it is not a protected system
path and either the run is dry or the `rm` succeeds. -/
def itemRemoved (rmOk : RmOracle) (dryRun : Bool) (item : CleanableItem) : Bool :=
  !isSystemPath item.path && (dryRun || rmOk item.path)

/-- Recognizers for trace actions. -/
def isRmAction : FsAction → Bool
  | .rm _ => true
  | _ => false

def isClassifyAction : FsAction → Bool
  | .classify _ => true
  | _ => false

def isProgressAction : FsAction → Bool
  | .progress _ _ _ => true
  | _ => false

theorem removeItem_fst (rmOk : RmOracle) (path : String) (dryRun : Bool) :
    (removeItem rmOk path dryRun).1 = (!isSystemPath path && (dryRun || rmOk path)) := by
  unfold removeItem
  cases h1 : isSystemPath path <;> cases dryRun <;> cases h2 : rmOk path <;> simp [h1, h2]

theorem removeItem_snd (rmOk : RmOracle) (path : String) (dryRun : Bool) :
    (removeItem rmOk path dryRun).2 =
      if isSystemPath path then [.warn path]
      else if dryRun then [] else [.rm path] := by
  unfold removeItem
  cases h1 : isSystemPath path <;> cases dryRun <;> cases h2 : rmOk path <;> simp [h1, h2]

/-- Full characterization of the `removeItems` loop: the counters count the
items that pass/fail `itemRemoved`, freed space sums the sizes of the
passing items, `rm` is issued exactly for non-system items outside dry
runs, no error is ever classified, and one progress call is made per
item. -/
theorem removeItemsGo_spec (rmOk : RmOracle) (dryRun : Bool) (total : Nat) :
    ∀ (items : List CleanableItem) (i : Nat),
      (removeItemsGo rmOk dryRun total items i).1.success
          = (items.filter (itemRemoved rmOk dryRun)).length
      ∧ (removeItemsGo rmOk dryRun total items i).1.failed
          = (items.filter (fun it => !itemRemoved rmOk dryRun it)).length
      ∧ (removeItemsGo rmOk dryRun total items i).1.freedSpace
          = ((items.filter (itemRemoved rmOk dryRun)).map (fun it => it.size)).sum
      ∧ (removeItemsGo rmOk dryRun total items i).2.filter isRmAction
          = (items.filter (fun it => !isSystemPath it.path && !dryRun)).map
              (fun it => FsAction.rm it.path)
      ∧ (removeItemsGo rmOk dryRun total items i).2.filter isClassifyAction = []
      ∧ ((removeItemsGo rmOk dryRun total items i).2.filter isProgressAction).length
          = items.length := by
  intro items
  induction items with
  | nil => intro i; simp [removeItemsGo]
  | cons item rest ih =>
    intro i
    obtain ⟨h1, h2, h3, h4, h5, h6⟩ := ih (i + 1)
    unfold removeItemsGo
    simp only [List.filter_cons, List.filter_append, h1, h2, h3, h4, h5, h6,
      removeItem_fst, removeItem_snd, itemRemoved, isProgressAction, isClassifyAction,
      isRmAction]
    by_cases hs : isSystemPath item.path = true <;>
      by_cases hd : dryRun = true <;>
        by_cases hr : rmOk item.path = true <;>
          simp_all [isRmAction, isClassifyAction, isProgressAction, Nat.add_comm]

/-- C1 (safety): for every item list and both values of `dryRun`, the
removal executor never issues `rm` for an item whose path is on the
protected system-path denylist, and such an item never contributes to
`success` or to `freedSpace`: both are computed over the filter that
excludes system paths. -/
theorem removeItems_system_path_guard (rmOk : RmOracle)
    (items : List CleanableItem) (dryRun : Bool) (item : CleanableItem)
    (_hmem : item ∈ items) (hsys : isSystemPath item.path = true) :
    ((removeItems rmOk items dryRun).2.count (FsAction.rm item.path) = 0)
    ∧ (removeItems rmOk items dryRun).1.success
        = (items.filter (itemRemoved rmOk dryRun)).length
    ∧ (removeItems rmOk items dryRun).1.freedSpace
        = ((items.filter (itemRemoved rmOk dryRun)).map (fun it => it.size)).sum
    ∧ itemRemoved rmOk dryRun item = false := by
  obtain ⟨h1, _, h3, h4, _, _⟩ := removeItemsGo_spec rmOk dryRun items.length items 0
  refine ⟨?_, h1, h3, by simp [itemRemoved, hsys]⟩
  rw [List.count_eq_zero]
  intro hcontra
  have hrm : FsAction.rm item.path ∈
      (removeItems rmOk items dryRun).2.filter isRmAction := by
    simp [List.mem_filter, isRmAction]
    exact hcontra
  rw [removeItems] at hrm
  rw [h4] at hrm
  simp only [List.mem_map, List.mem_filter] at hrm
  obtain ⟨other, ⟨_, hnotsys⟩, heq⟩ := hrm
  have : other.path = item.path := by
    injection heq
  rw [this] at hnotsys
  simp [hsys] at hnotsys

/-- The `C:\Windows\System32\x` item of the spec's system-path guard
test. -/
def sysItem : CleanableItem := ⟨"C:\\Windows\\System32\\x", 100, "x", false, none⟩

/-- Witness for C1 at a concrete input: cleaning
`C:\Windows\System32\x` with `dryRun = false` issues no `rm` and the item
is not counted. -/
theorem removeItems_system_path_guard_witness :
    sysItem ∈ [sysItem]
    ∧ isSystemPath sysItem.path = true
    ∧ ((removeItems (fun _ => true) [sysItem] false).2.count
        (FsAction.rm sysItem.path) = 0
      ∧ (removeItems (fun _ => true) [sysItem] false).1.success
        = ([sysItem].filter (itemRemoved (fun _ => true) false)).length
      ∧ (removeItems (fun _ => true) [sysItem] false).1.freedSpace
        = (([sysItem].filter (itemRemoved (fun _ => true) false)).map
            (fun it => it.size)).sum
      ∧ itemRemoved (fun _ => true) false sysItem = false) :=
  ⟨by simp, by decide,
    removeItems_system_path_guard (fun _ => true) [sysItem] false sysItem
      (by simp) (by decide)⟩

/-- C2 (frame effect of dry runs): `removeItems(items, dryRun = true)`
issues no `rm` at all, counts every non-system-path item as removed, and
reports `freedSpace` equal to the sum of the recorded sizes of the
non-system-path items. -/
theorem removeItems_dry_run (rmOk : RmOracle) (items : List CleanableItem) :
    ((removeItems rmOk items true).2.filter isRmAction = [])
    ∧ (removeItems rmOk items true).1.success
        = (items.filter (fun it => !isSystemPath it.path)).length
    ∧ (removeItems rmOk items true).1.freedSpace
        = ((items.filter (fun it => !isSystemPath it.path)).map (fun it => it.size)).sum := by
  obtain ⟨h1, _, h3, h4, _, _⟩ := removeItemsGo_spec rmOk true items.length items 0
  have hfilter : items.filter (itemRemoved rmOk true)
      = items.filter (fun it => !isSystemPath it.path) := by
    apply List.filter_congr
    intro it _
    simp [itemRemoved]
  rw [removeItems]
  refine ⟨?_, by rw [h1, hfilter], by rw [h3, hfilter]⟩
  rw [h4]
  simp

/-- C7 counterexample: at a concrete input whose single (non-system-path)
item fails to be removed, the batch reports one failure, yet no failure is
ever classified through the §7 taxonomy (`classifyError` is never invoked)
and no error is appended to any list: the emitted trace is just the
progress call and the failed `rm`.  This refutes the claim that every
per-item failure is classified and appended to an errors list. -/
theorem removeItems_no_error_classification :
    (removeItems (fun _ => false)
        [⟨"C:\\Users\\u\\f.txt", 7, "f.txt", false, none⟩] false).1.failed = 1
    ∧ (removeItems (fun _ => false)
        [⟨"C:\\Users\\u\\f.txt", 7, "f.txt", false, none⟩] false).2.filter
          isClassifyAction = []
    ∧ (removeItems (fun _ => false)
        [⟨"C:\\Users\\u\\f.txt", 7, "f.txt", false, none⟩] false).2
      = [FsAction.progress 1 1 "C:\\Users\\u\\f.txt", FsAction.rm "C:\\Users\\u\\f.txt"] := by
  refine ⟨by decide, by decide, by decide⟩

/-- A list splits into the elements passing and failing a Boolean
predicate. -/
theorem filterSplitLength {α : Type} (l : List α) (p : α → Bool) :
    (l.filter p).length + (l.filter (fun a => !p a)).length = l.length := by
  induction l with
  | nil => rfl
  | cons x xs ih =>
    by_cases h : p x = true <;> simp [List.filter_cons, h, ← ih] <;> omega

/-- C7 as amended: the removal batch always runs to completion — one
progress call per item, each item incrementing exactly one of `success`
and `failed` so that `success + failed` equals the number of items — and
per-item failures never abort or escape the loop; but they are only
counted, never classified (the trace contains no `classifyError` call and
`removeItems` returns no errors list). -/
theorem removeItems_batch_completes (rmOk : RmOracle)
    (items : List CleanableItem) (dryRun : Bool) :
    (removeItems rmOk items dryRun).1.success + (removeItems rmOk items dryRun).1.failed
        = items.length
    ∧ ((removeItems rmOk items dryRun).2.filter isProgressAction).length = items.length
    ∧ (removeItems rmOk items dryRun).2.filter isClassifyAction = [] := by
  obtain ⟨h1, h2, _, _, h5, h6⟩ := removeItemsGo_spec rmOk dryRun items.length items 0
  rw [removeItems]
  refine ⟨?_, h6, h5⟩
  rw [h1, h2]
  exact filterSplitLength items (itemRemoved rmOk dryRun)

/-! ## C10: `expandPath` never returns a protected system path -/

theorem toList_mk (l : List Char) : (String.mk l).toList = l := rfl

theorem toList_append (a b : String) : (a ++ b).toList = a.toList ++ b.toList := rfl

theorem sep_not_alpha {c : Char} (h : isSep c = true) : c.isAlpha = false := by
  unfold isSep at h
  rcases Bool.or_eq_true_iff.mp h with h1 | h1 <;>
    · have : c = '\\' ∨ c = '/' := by
        first
        | exact Or.inl (by simpa using h1)
        | exact Or.inr (by simpa using h1)
      rcases this with rfl | rfl <;> decide

/-- `splitDrive` either leaves the list alone or strips an alphabetic
drive designator. -/
theorem splitDrive_shape (cs : List Char) :
    splitDrive cs = ([], cs)
    ∨ ∃ a rest, a.isAlpha = true ∧ cs = a :: ':' :: rest
        ∧ splitDrive cs = ([a, ':'], rest) := by
  rcases cs with _ | ⟨a, _ | ⟨b, t⟩⟩
  · left; rfl
  · left; rfl
  · by_cases h : a.isAlpha = true ∧ b = ':'
    · right
      exact ⟨a, t, h.1, by rw [h.2], by simp [splitDrive, h]⟩
    · left
      simp [splitDrive, h]

/-- A list headed by a separator is left alone by `splitDrive`. -/
theorem splitDrive_sep_head {c : Char} (h : isSep c = true) (t : List Char) :
    splitDrive (c :: t) = ([], c :: t) := by
  have hna : c.isAlpha = false := sep_not_alpha h
  rcases t with _ | ⟨b, t'⟩
  · rfl
  · simp [splitDrive, hna]

/-- `splitDrive` strips an alphabetic drive designator. -/
theorem splitDrive_drive_head {a : Char} (ha : a.isAlpha = true) (t : List Char) :
    splitDrive (a :: ':' :: t) = ([a, ':'], t) := by
  simp [splitDrive, ha]

/-- Reassembling an absolute rest after a well-formed drive yields an
absolute path. -/
theorem normalizeBody_absolute (drive rest : List Char)
    (hd : drive = [] ∨ ∃ a, a.isAlpha = true ∧ drive = [a, ':'])
    (h : headIsSep rest = true) :
    isAbsoluteWin (normalizeBody drive rest) = true := by
  unfold normalizeBody
  simp only [h, Bool.not_true, Bool.and_false, Bool.false_eq_true, if_false, if_pos]
  unfold isAbsoluteWin
  rw [toList_mk]
  rcases hd with rfl | ⟨a, ha, rfl⟩
  · rw [List.nil_append]
    have hsep : isSep '\\' = true := by decide
    rw [List.cons_append, splitDrive_sep_head hsep]
    simp [headIsSep, hsep]
  · have : ([a, ':'] ++ ['\\'] ++
        (if (List.intercalate ['\\'] (resolveDots (!true) []
              (splitComps rest))).isEmpty && !true then ['.']
          else List.intercalate ['\\'] (resolveDots (!true) [] (splitComps rest))))
        = a :: ':' :: '\\' :: (if (List.intercalate ['\\'] (resolveDots (!true) []
              (splitComps rest))).isEmpty && !true then ['.']
          else List.intercalate ['\\'] (resolveDots (!true) [] (splitComps rest))) := by
      simp
    simp only [List.append_assoc, List.cons_append, List.nil_append]
    rw [splitDrive_drive_head ha]
    simp [headIsSep, isSep]

/-- `path.win32.normalize` preserves absoluteness. -/
theorem normalizeWin_absolute (p : String) (h : isAbsoluteWin p = true) :
    isAbsoluteWin (normalizeWin p) = true := by
  unfold isAbsoluteWin at h
  unfold normalizeWin
  rcases splitDrive_shape p.toList with h0 | ⟨a, r, ha, hcs, heq⟩
  · rw [h0] at h ⊢
    exact normalizeBody_absolute _ _ (Or.inl rfl) h
  · rw [heq] at h ⊢
    exact normalizeBody_absolute _ _ (Or.inr ⟨a, ha, rfl⟩) h

/-- Appending anything to an absolute path keeps it absolute. -/
theorem append_absolute (cwd s : String) (h : isAbsoluteWin cwd = true) :
    isAbsoluteWin (cwd ++ s) = true := by
  unfold isAbsoluteWin at h ⊢
  rw [toList_append]
  rcases splitDrive_shape cwd.toList with h0 | ⟨a, r, ha, hcs, heq⟩
  · rw [h0] at h
    rcases hlist : cwd.toList with _ | ⟨c, t⟩
    · rw [hlist] at h; simp [headIsSep] at h
    · rw [hlist] at h
      have hsep : isSep c = true := by simpa [headIsSep] using h
      rw [List.cons_append, splitDrive_sep_head hsep]
      simpa [headIsSep] using hsep
  · rw [heq] at h
    rcases r with _ | ⟨c, t⟩
    · simp [headIsSep] at h
    · have hsep : isSep c = true := by simpa [headIsSep] using h
      rw [hcs]
      simp only [List.cons_append]
      rw [splitDrive_drive_head ha]
      simpa [headIsSep] using hsep

/-- `path.win32.resolve` against an absolute working directory yields an
absolute path. -/
theorem resolveWin_absolute (cwd p : String) (h : isAbsoluteWin cwd = true) :
    isAbsoluteWin (resolveWin cwd p) = true := by
  unfold resolveWin
  by_cases hp : isAbsoluteWin p = true
  · simp only [hp, if_pos]
    exact normalizeWin_absolute p hp
  · simp only [hp, if_neg, Bool.not_eq_true]
    refine normalizeWin_absolute _ ?_
    exact append_absolute (cwd ++ "\\") p (append_absolute cwd "\\" h)

/-- C10: `expandPath` either throws or returns the normalization of the
tilde-expanded, resolved input; a returned path is never a protected
system path (and is absolute whenever the working directory is), and it
throws exactly when that normalized resolution is a protected system
path. -/
theorem expandPath_never_system (home cwd inputPath : String) :
    (∀ p, expandPath home cwd inputPath = Except.ok p →
        isSystemPath p = false
        ∧ p = normalizeWin (resolveWin cwd (tildeExpand home inputPath))
        ∧ (isAbsoluteWin cwd = true → isAbsoluteWin p = true))
    ∧ ((∃ e, expandPath home cwd inputPath = Except.error e) ↔
        isSystemPath (normalizeWin (resolveWin cwd (tildeExpand home inputPath))) = true) := by
  by_cases h : isSystemPath (normalizeWin (resolveWin cwd (tildeExpand home inputPath))) = true
  · constructor
    · intro p hp
      unfold expandPath at hp
      rw [if_pos h] at hp
      cases hp
    · constructor
      · intro _
        exact h
      · intro _
        refine ⟨"Unsafe path detected: " ++ inputPath
            ++ " resolves to protected system path", ?_⟩
        unfold expandPath
        rw [if_pos h]
  · constructor
    · intro p hp
      unfold expandPath at hp
      rw [if_neg h] at hp
      cases hp
      refine ⟨by simpa using h, rfl, fun habs => ?_⟩
      exact normalizeWin_absolute _ (resolveWin_absolute cwd _ habs)
    · constructor
      · rintro ⟨e, he⟩
        unfold expandPath at he
        rw [if_neg h] at he
        cases he
      · intro hcontra
        exact absurd hcontra h

/-- Witness for C10 at a concrete input: expanding `~\docs` from an
absolute, non-system home/working directory. -/
theorem expandPath_never_system_witness :
    isSystemPath "C:\\Users\\u\\docs" = false
    ∧ "C:\\Users\\u\\docs"
        = normalizeWin (resolveWin "C:\\Users\\u" (tildeExpand "C:\\Users\\u" "~\\docs"))
    ∧ (isAbsoluteWin "C:\\Users\\u" = true → isAbsoluteWin "C:\\Users\\u\\docs" = true) :=
  (expandPath_never_system "C:\\Users\\u" "C:\\Users\\u" "~\\docs").1
    "C:\\Users\\u\\docs" (by rfl)

/-! ## Scan results and the scanner harness

`ScanResult` is from `src/types.ts`.  `createResult` is the helper of
`BaseScanner` (`src/scanners/base-scanner.ts`), which is absent from the
source snapshot; `createEmptyResult` is the helper the plan document's
`executeScanners` calls on a scanner failure.  The harness itself
(`runScans`/`executeScanners`) is absent from the snapshot and is
modelled from the repository's plan document
(`plans/windows-cleaner-cli-audit-ameliorations.md:152-185`), which runs
the per-scanner tasks through `runWithConcurrencyLimit`
(`src/utils/fs.ts:36-57`). -/

/-- `ScanResult` (`src/types.ts`). -/
structure ScanResult where
  category : String
  items : List CleanableItem
  totalSize : Nat
  error : Option String
deriving DecidableEq

/-- Modelled from the spec: `BaseScanner.createResult`
(`src/scanners/base-scanner.ts` is absent from the snapshot) builds a
`ScanResult` whose `totalSize` is the sum of the item sizes
(`ScanResult` invariant, spec §3; the plan document's `DuplicatesScanner`
computes the same `reduce` sum inline). -/
def createResult (category : String) (items : List CleanableItem) : ScanResult :=
  ⟨category, items, (items.map (fun it => it.size)).sum, none⟩

/-- Modelled from the spec: `createEmptyResult` (called by the plan
document's `executeScanners` on a scanner failure; spec §4.4: an empty
`ScanResult` carrying the category and an `error` string). -/
def createEmptyResult (category : String) (err : String) : ScanResult :=
  ⟨category, [], 0, some err⟩

/-! ### `runWithConcurrencyLimit` (`src/utils/fs.ts:36-57`)

A task is modelled as its produced value paired with its duration: the
promise of a task admitted at time `now` resolves at `now + duration`.
The loop starts tasks in order; once `concurrency` tasks are in flight it
awaits `Promise.race`, which resolves the earliest-finishing tasks and
pushes their results — so `results` receives values in completion order,
not submission order.  The trailing `Promise.all` drains the remaining
in-flight tasks the same way.  The simulation is fuel-indexed so that it
is structurally recursive; `2 * tasks.length + 1` fuel always suffices. -/

/-- Earliest completion time among in-flight tasks. -/
def minTime {α : Type} : List (α × Nat) → Nat
  | [] => 0
  | t :: ts => ts.foldl (fun m x => Nat.min m x.2) t.2

/-- One scheduler: `pending` tasks not yet started, `inflight` tasks with
their absolute completion times, `now` the current time, `results` the
array the `.then` callbacks have pushed into.  When `concurrency = 0` the
source awaits `Promise.race` of an empty set and hangs; that unreachable
branch is modelled as truncation. -/
def runPoolF {α : Type} (c : Nat) :
    Nat → List (α × Nat) → List (α × Nat) → Nat → List α → List α
  | 0, _, _, _, results => results
  | fuel + 1, pending, inflight, now, results =>
    match pending with
    | [] =>
      match inflight with
      | [] => results
      | _ :: _ =>
        runPoolF c fuel []
          (inflight.filter (fun x => !(x.2 == minTime inflight)))
          (minTime inflight)
          (results ++ (inflight.filter (fun x => x.2 == minTime inflight)).map
            (fun x => x.1))
    | t :: rest =>
      if inflight.length < c then
        runPoolF c fuel rest (inflight ++ [(t.1, now + t.2)]) now results
      else
        match inflight with
        | [] => results
        | _ :: _ =>
          runPoolF c fuel pending
            (inflight.filter (fun x => !(x.2 == minTime inflight)))
            (minTime inflight)
            (results ++ (inflight.filter (fun x => x.2 == minTime inflight)).map
              (fun x => x.1))

/-- `runWithConcurrencyLimit` (`src/utils/fs.ts:36-57`) over tasks given
as (produced value, duration) pairs. -/
def runWithConcurrencyLimit {α : Type} (tasks : List (α × Nat)) (concurrency : Nat) :
    List α :=
  runPoolF concurrency (2 * tasks.length + 1) tasks [] 0 []

/-- Some in-flight task attains the minimum completion time. -/
theorem minTime_mem {α : Type} :
    ∀ (l : List (α × Nat)), l ≠ [] → ∃ x ∈ l, x.2 = minTime l := by
  have hfold : ∀ (ts : List (α × Nat)) (acc : Nat),
      ts.foldl (fun m x => Nat.min m x.2) acc = acc
      ∨ ∃ x ∈ ts, ts.foldl (fun m x => Nat.min m x.2) acc = x.2 := by
    intro ts
    induction ts with
    | nil => intro acc; left; rfl
    | cons y ys ih =>
      intro acc
      rcases ih (Nat.min acc y.2) with h | ⟨x, hx, heq⟩
      · rcases Nat.le_total acc y.2 with hle | hle
        · left
          simpa [List.foldl_cons, Nat.min_eq_left hle] using h
        · right
          exact ⟨y, by simp, by simpa [List.foldl_cons, Nat.min_eq_right hle] using h⟩
      · right
        exact ⟨x, by simp [hx], by simpa [List.foldl_cons] using heq⟩
  intro l hl
  rcases l with _ | ⟨t, ts⟩
  · exact absurd rfl hl
  · rcases hfold ts t.2 with h | ⟨x, hx, heq⟩
    · exact ⟨t, by simp, h.symm⟩
    · exact ⟨x, by simp [hx], heq.symm⟩

/-- Completing the minimum-time batch strictly shrinks the in-flight
list. -/
theorem batch_shrinks {α : Type} (l : List (α × Nat)) (hl : l ≠ []) :
    (l.filter (fun x => !(x.2 == minTime l))).length < l.length := by
  obtain ⟨x, hx, hxt⟩ := minTime_mem l hl
  calc (l.filter (fun x => !(x.2 == minTime l))).length
      < l.length := by
        apply List.length_filter_lt_length_iff_exists.mpr
        exact ⟨x, hx, by simp [hxt]⟩

/-- The values of a minimum-time batch followed by the remaining in-flight
values are a permutation of all in-flight values. -/
theorem batch_perm {α : Type} (l : List (α × Nat)) :
    List.Perm
      ((l.filter (fun x => x.2 == minTime l)).map (fun x => x.1)
        ++ (l.filter (fun x => !(x.2 == minTime l))).map (fun x => x.1))
      (l.map (fun x => x.1)) := by
  rw [← List.map_append]
  exact (List.filter_append_perm _ l).map _

/-- Whatever the completion schedule, the pool returns exactly the task
values in some order: the accumulated results plus the in-flight and
pending values, as a permutation. -/
theorem runPoolF_perm {α : Type} (c : Nat) (hc : 1 ≤ c) :
    ∀ (fuel : Nat) (pending inflight : List (α × Nat)) (now : Nat) (results : List α),
      2 * pending.length + inflight.length ≤ fuel →
      (runPoolF c fuel pending inflight now results).Perm
        (results ++ inflight.map (fun x => x.1) ++ pending.map (fun x => x.1)) := by
  intro fuel
  induction fuel with
  | zero =>
    intro pending inflight now results hle
    have hp : pending = [] := List.length_eq_zero.mp (by omega)
    have hi : inflight = [] := List.length_eq_zero.mp (by omega)
    subst hp; subst hi
    simp [runPoolF]
  | succ fuel ih =>
    intro pending inflight now results hle
    rcases pending with _ | ⟨t, rest⟩
    · rcases inflight with _ | ⟨y, ys⟩
      · simp [runPoolF]
      · have hne : (y :: ys : List (α × Nat)) ≠ [] := by simp
        have hlt := batch_shrinks (y :: ys) hne
        have hperm := ih []
          ((y :: ys).filter (fun x => !(x.2 == minTime (y :: ys))))
          (minTime (y :: ys))
          (results ++ ((y :: ys).filter (fun x => x.2 == minTime (y :: ys))).map
            (fun x => x.1))
          (by
            simp only [List.length_nil, List.length_cons] at hle hlt ⊢
            omega)
        have hstep : runPoolF c (fuel + 1) [] (y :: ys) now results
            = runPoolF c fuel []
                ((y :: ys).filter (fun x => !(x.2 == minTime (y :: ys))))
                (minTime (y :: ys))
                (results ++ ((y :: ys).filter (fun x => x.2 == minTime (y :: ys))).map
                  (fun x => x.1)) := by
          simp [runPoolF]
        rw [hstep]
        refine hperm.trans ?_
        simp only [List.map_nil, List.append_nil, List.append_assoc]
        exact List.Perm.append_left results (batch_perm (y :: ys))
    · by_cases hfull : inflight.length < c
      · have hperm := ih rest (inflight ++ [(t.1, now + t.2)]) now results
          (by
            simp only [List.length_cons, List.length_append, List.length_cons,
              List.length_nil] at hle ⊢
            omega)
        have hstep : runPoolF c (fuel + 1) (t :: rest) inflight now results
            = runPoolF c fuel rest (inflight ++ [(t.1, now + t.2)]) now results := by
          simp [runPoolF, hfull]
        rw [hstep]
        refine hperm.trans ?_
        have heq : results ++ (inflight ++ [(t.1, now + t.2)]).map (fun x => x.1)
              ++ rest.map (fun x => x.1)
            = results ++ inflight.map (fun x => x.1)
              ++ (t :: rest).map (fun x => x.1) := by
          simp
        rw [heq]
      · have hne : inflight ≠ [] := by
          intro h
          rw [h] at hfull
          simp at hfull
          omega
        rcases inflight with _ | ⟨y, ys⟩
        · exact absurd rfl hne
        · have hlt := batch_shrinks (y :: ys) hne
          have hperm := ih (t :: rest)
            ((y :: ys).filter (fun x => !(x.2 == minTime (y :: ys))))
            (minTime (y :: ys))
            (results ++ ((y :: ys).filter (fun x => x.2 == minTime (y :: ys))).map
              (fun x => x.1))
            (by
              simp only [List.length_cons] at hle hlt ⊢
              omega)
          have hstep : runPoolF c (fuel + 1) (t :: rest) (y :: ys) now results
              = runPoolF c fuel (t :: rest)
                  ((y :: ys).filter (fun x => !(x.2 == minTime (y :: ys))))
                  (minTime (y :: ys))
                  (results ++ ((y :: ys).filter (fun x => x.2 == minTime (y :: ys))).map
                    (fun x => x.1)) := by
            have hfull' : ¬(ys.length + 1 < c) := by simpa using hfull
            simp [runPoolF, hfull']
          rw [hstep]
          refine hperm.trans ?_
          simp only [List.append_assoc]
          refine List.Perm.append_left results ?_
          rw [← List.append_assoc]
          exact (batch_perm (y :: ys)).append_right _

/-! ### The scanner harness (`executeScanners`, modelled from
`plans/windows-cleaner-cli-audit-ameliorations.md:152-185`) -/

instance exceptDecEq {ε α : Type} [DecidableEq ε] [DecidableEq α] :
    DecidableEq (Except ε α) := fun x y =>
  match x, y with
  | .ok a, .ok b =>
    if h : a = b then isTrue (by rw [h])
    else isFalse (by intro hc; injection hc with h2; exact h h2)
  | .ok _, .error _ => isFalse (by intro hc; cases hc)
  | .error _, .ok _ => isFalse (by intro hc; cases hc)
  | .error e, .error f =>
    if h : e = f then isTrue (by rw [h])
    else isFalse (by intro hc; injection hc with h2; exact h h2)

/-- A scanner as the harness sees it: its category id, how long its
`scan()` takes to settle, and whether it returns a `ScanResult` or
throws (an `Except.error` carrying the thrown message). -/
structure SimScanner where
  catId : String
  durationMs : Nat
  outcome : Except String ScanResult
deriving DecidableEq

/-- The value of one wrapped harness task
(`executeScanners`' `try { return await scanner.scan() } catch { return
createEmptyResult(scanner.category) }`): the scan's own result, or the
empty result for its category carrying the error string. -/
def scanResultOf (s : SimScanner) : ScanResult :=
  match s.outcome with
  | .ok r => r
  | .error e => createEmptyResult s.catId e

/-- `executeScanners` (plan document, lines 152-170): wrap each scanner in
a task and run the tasks through `runWithConcurrencyLimit`.  The returned
list is the pool's `results` array. -/
def executeScanners (scanners : List SimScanner) (concurrency : Nat) : List ScanResult :=
  runWithConcurrencyLimit (scanners.map (fun s => (scanResultOf s, s.durationMs))) concurrency

/-- Shared helper: for positive concurrency, the harness returns a
permutation of the per-scanner results. -/
theorem executeScanners_perm_helper (scanners : List SimScanner) (c : Nat) (hc : 1 ≤ c) :
    (executeScanners scanners c).Perm (scanners.map scanResultOf) := by
  unfold executeScanners runWithConcurrencyLimit
  have h := runPoolF_perm c hc
    (2 * (scanners.map (fun s => (scanResultOf s, s.durationMs))).length + 1)
    (scanners.map (fun s => (scanResultOf s, s.durationMs))) [] 0 []
    (by simp)
  simpa [List.map_map, Function.comp] using h

/-- C3 counterexample: with scanner `a` taking 5 ms and scanner `b` taking
1 ms under the default concurrency 4, the harness returns the results in
completion order `["b", "a"]`, not in the requested order `["a", "b"]`:
`runWithConcurrencyLimit` pushes each result when its task settles. -/
theorem executeScanners_completion_order :
    (executeScanners
        [⟨"a", 5, .ok (createResult "a" [])⟩, ⟨"b", 1, .ok (createResult "b" [])⟩] 4).map
      (fun r => r.category) = ["b", "a"]
    ∧ ¬ ((executeScanners
        [⟨"a", 5, .ok (createResult "a" [])⟩, ⟨"b", 1, .ok (createResult "b" [])⟩] 4).map
      (fun r => r.category) = ["a", "b"]) := by
  exact ⟨by decide, by decide⟩

/-- C3 as amended: for every scanner list and every positive concurrency,
the harness returns exactly one result per requested scanner — the
requested results as a multiset — but ordered by completion, so the
output order agrees with the requested order only when the completion
order does. -/
theorem executeScanners_one_result_each (scanners : List SimScanner) (c : Nat)
    (hc : 1 ≤ c) :
    (executeScanners scanners c).Perm (scanners.map scanResultOf)
    ∧ (executeScanners scanners c).length = scanners.length := by
  have h := executeScanners_perm_helper scanners c hc
  exact ⟨h, by simpa using h.length_eq⟩

/-- Witness for the amended C3 at a concrete input. -/
theorem executeScanners_one_result_each_witness :
    (executeScanners [⟨"a", 5, .ok (createResult "a" [])⟩] 4).Perm
      ([⟨"a", 5, .ok (createResult "a" [])⟩].map scanResultOf)
    ∧ (executeScanners [⟨"a", 5, .ok (createResult "a" [])⟩] 4).length
      = [(⟨"a", 5, .ok (createResult "a" [])⟩ : SimScanner)].length :=
  executeScanners_one_result_each [⟨"a", 5, .ok (createResult "a" [])⟩] 4 (by decide)

/-- C4 (failure isolation): a throwing scanner is converted into the empty
result for its category carrying the error string; the harness still
returns one result per requested scanner (never throwing itself — it is a
total function of the scanners), and every non-throwing scanner's result
is its own `scan` output, unaffected by the failing sibling. -/
theorem executeScanners_failure_isolation (scanners : List SimScanner) (c : Nat)
    (hc : 1 ≤ c) :
    (executeScanners scanners c).Perm (scanners.map scanResultOf)
    ∧ (∀ s ∈ scanners, ∀ e, s.outcome = .error e →
        scanResultOf s = createEmptyResult s.catId e
        ∧ (scanResultOf s).items = [] ∧ (scanResultOf s).error = some e)
    ∧ (∀ s ∈ scanners, ∀ r, s.outcome = .ok r → scanResultOf s = r) := by
  refine ⟨executeScanners_perm_helper scanners c hc, ?_, ?_⟩
  · intro s _ e he
    simp [scanResultOf, he, createEmptyResult]
  · intro s _ r hr
    simp [scanResultOf, hr]

/-- Witness for C4 at a concrete input with one throwing scanner. -/
theorem executeScanners_failure_isolation_witness :
    ((executeScanners
        [⟨"a", 2, .ok (createResult "a" [])⟩, ⟨"b", 1, .error "boom"⟩] 4).Perm
      ([⟨"a", 2, .ok (createResult "a" [])⟩,
        (⟨"b", 1, .error "boom"⟩ : SimScanner)].map scanResultOf))
    ∧ (scanResultOf ⟨"b", 1, .error "boom"⟩ = createEmptyResult "b" "boom"
        ∧ (scanResultOf ⟨"b", 1, .error "boom"⟩).items = []
        ∧ (scanResultOf ⟨"b", 1, .error "boom"⟩).error = some "boom")
    ∧ scanResultOf ⟨"a", 2, .ok (createResult "a" [])⟩ = createResult "a" [] := by
  obtain ⟨h1, h2, h3⟩ := executeScanners_failure_isolation
    [⟨"a", 2, .ok (createResult "a" [])⟩, ⟨"b", 1, .error "boom"⟩] 4 (by decide)
  exact ⟨h1, h2 ⟨"b", 1, .error "boom"⟩ (by simp) "boom" rfl,
    h3 ⟨"a", 2, .ok (createResult "a" [])⟩ (by simp) (createResult "a" []) rfl⟩

/-! ## C5: the ScanResult size invariant

The scanners in the snapshot (`temp-files.ts`, `windows-update.ts`,
`system-logs.ts`, `docker.ts`) all build their result through
`createResult`.  `TempFilesScanner.scan` is embedded below against an
oracle for its filesystem probes, and `DockerScanner.scan` against the
already-parsed `docker system df` lines (its float size parser is
abstracted as the parsed byte count). -/

/-- Oracle for the filesystem probes of `TempFilesScanner.scan`
(`src/scanners/temp-files.ts:9-49`): for each of the two candidate
directories, whether `exists` succeeds, what `getSize` returns, and what
`stat` returns for the modification time (`none` models a throw). -/
structure TempFsOracle where
  userTempPath : String
  userTempExists : Bool
  userTempSize : Nat
  userTempStat : Option Int
  systemTempPath : String
  systemTempExists : Bool
  systemTempSize : Nat
  systemTempStat : Option Int

/-- One candidate block of `TempFilesScanner.scan`: push an item only when
the path exists, its size is positive, and `stat` does not throw. -/
def tempEntryItems (path name : String) (ex : Bool) (size : Nat)
    (statRes : Option Int) : List CleanableItem :=
  if ex then
    if 0 < size then
      match statRes with
      | some mt => [⟨path, size, name, true, some mt⟩]
      | none => []
    else []
  else []

/-- `TempFilesScanner.scan` (`src/scanners/temp-files.ts:9-49`). -/
def tempFilesScan (o : TempFsOracle) : ScanResult :=
  createResult "temp-files"
    (tempEntryItems o.userTempPath "User Temp" o.userTempExists o.userTempSize
        o.userTempStat
      ++ tempEntryItems o.systemTempPath "Windows Temp" o.systemTempExists
        o.systemTempSize o.systemTempStat)

/-- `DockerScanner.scan` (`docker.ts:11-36`), over the parsed
`(type, reclaimableBytes)` lines of `docker system df`: keep the lines
with positive reclaimable bytes. -/
def dockerScan (parsed : List (String × Nat)) : ScanResult :=
  createResult "docker"
    ((parsed.filter (fun l => 0 < l.2)).map
      (fun l => ⟨"docker:" ++ toLowerStr l.1, l.2, "Docker " ++ l.1, false, none⟩))

/-- C5: every `ScanResult` built through `createResult` — in particular
those of `TempFilesScanner.scan` and `DockerScanner.scan` — has
`totalSize` equal to the sum of its items' sizes. -/
theorem scanResult_totalSize_invariant (o : TempFsOracle)
    (parsed : List (String × Nat)) (cat : String) (items : List CleanableItem) :
    (tempFilesScan o).totalSize = ((tempFilesScan o).items.map (fun it => it.size)).sum
    ∧ (dockerScan parsed).totalSize
        = ((dockerScan parsed).items.map (fun it => it.size)).sum
    ∧ (createResult cat items).totalSize
        = ((createResult cat items).items.map (fun it => it.size)).sum :=
  ⟨rfl, rfl, rfl⟩

/-! ## C6: concurrency structure of `getDirectorySize`
(`src/utils/fs.ts:65-98`)

`getDirectorySize` builds one task per directory entry — a `stat` for a
file, a recursive `getDirectorySize` for a subdirectory — and runs them
through a **fresh** call to `runWithConcurrencyLimit(tasks, 20)`.  The
in-flight structure of an execution is modelled as a small-step system:
a `statOp` is an in-flight `stat`, and a `pool` is one
`runWithConcurrencyLimit` invocation with its not-yet-started dirents and
its in-flight tasks.  The nondeterministic scheduler interleaves
admissions (allowed while the pool's own in-flight set is below the
ceiling) and completions. -/

/-- `maxConcurrentIo` (`src/utils/fs.ts:7`). -/
def maxConcurrentIo : Nat := 20

/-- A directory tree as `getDirectorySize` traverses it. -/
inductive FsTree
  | file (size : Nat)
  | dir (children : List FsTree)

/-- A snapshot of one task's in-flight structure. -/
inductive IoProc
  | statOp
  | pool (pending : List FsTree) (inflight : List IoProc)

/-- Starting the task for one dirent: a file issues its `stat`, a
subdirectory starts a fresh `getDirectorySize` with its own pool. -/
def spawnTask : FsTree → IoProc
  | .file _ => .statOp
  | .dir cs => .pool cs []

/-- One scheduler step of the nested pools.  A pool admits its next task
while its own in-flight list is below `maxConcurrentIo`; a finished
`stat` or an exhausted pool leaves its parent's in-flight list; any step
may happen inside a nested in-flight task. -/
inductive IoStep : IoProc → IoProc → Prop
  | launch {t : FsTree} {pending : List FsTree} {inflight : List IoProc} :
      inflight.length < maxConcurrentIo →
      IoStep (.pool (t :: pending) inflight) (.pool pending (inflight ++ [spawnTask t]))
  | statDone {pending : List FsTree} {l r : List IoProc} :
      IoStep (.pool pending (l ++ IoProc.statOp :: r)) (.pool pending (l ++ r))
  | poolDone {pending : List FsTree} {l r : List IoProc} :
      IoStep (.pool pending (l ++ IoProc.pool [] [] :: r)) (.pool pending (l ++ r))
  | congr {p q : IoProc} {pending : List FsTree} {l r : List IoProc} :
      IoStep p q →
      IoStep (.pool pending (l ++ p :: r)) (.pool pending (l ++ q :: r))

/-- The executions of `getDirectorySize` on a directory with children
`cs` are the step sequences from `pool cs []`. -/
def IoReach (cs : List FsTree) (p : IoProc) : Prop :=
  Relation.ReflTransGen IoStep (.pool cs []) p

/-- Number of concurrently in-flight `stat` operations in a snapshot,
fuel-indexed (any fuel at least the nesting depth gives the exact
count). -/
def inFlightStats : Nat → IoProc → Nat
  | 0, _ => 0
  | _ + 1, .statOp => 1
  | fuel + 1, .pool _ inflight => (inflight.map (inFlightStats fuel)).sum

/-- Every pool in the snapshot — each being one `runWithConcurrencyLimit`
invocation — has at most `n` of its own tasks in flight. -/
inductive PoolBounded (n : Nat) : IoProc → Prop
  | statOp : PoolBounded n .statOp
  | pool {pending : List FsTree} {inflight : List IoProc} :
      inflight.length ≤ n →
      (∀ p ∈ inflight, PoolBounded n p) →
      PoolBounded n (.pool pending inflight)

theorem spawnTask_bounded (n : Nat) (t : FsTree) : PoolBounded n (spawnTask t) := by
  cases t with
  | file _ => exact .statOp
  | dir cs => exact .pool (by simp) (by simp)

/-- One step preserves the per-pool bound. -/
theorem ioStep_poolBounded {p q : IoProc} (h : IoStep p q)
    (hb : PoolBounded maxConcurrentIo p) : PoolBounded maxConcurrentIo q := by
  induction h with
  | launch hlt =>
    rcases hb with _ | ⟨hlen, hall⟩
    refine .pool ?_ ?_
    · simpa using hlt
    · intro x hx
      rcases List.mem_append.mp hx with hx | hx
      · exact hall x (by simp [hx])
      · rcases List.mem_singleton.mp hx with rfl
        exact spawnTask_bounded _ _
  | statDone =>
    rcases hb with _ | ⟨hlen, hall⟩
    refine .pool ?_ ?_
    · simp at hlen ⊢
      omega
    · intro x hx
      refine hall x ?_
      rcases List.mem_append.mp hx with hx | hx
      · simp [hx]
      · simp [hx]
  | poolDone =>
    rcases hb with _ | ⟨hlen, hall⟩
    refine .pool ?_ ?_
    · simp at hlen ⊢
      omega
    · intro x hx
      refine hall x ?_
      rcases List.mem_append.mp hx with hx | hx
      · simp [hx]
      · simp [hx]
  | congr hstep ih =>
    rcases hb with _ | ⟨hlen, hall⟩
    refine .pool (by simpa using hlen) ?_
    intro x hx
    rcases List.mem_append.mp hx with hx | hx
    · exact hall x (by simp [hx])
    · rcases List.mem_cons.mp hx with rfl | hx
      · exact ih (hall _ (by simp))
      · exact hall x (by simp [hx])

/-- C6 as amended: every `runWithConcurrencyLimit` invocation — each
directory level's own pool — keeps at most 20 of its own tasks in flight,
in every reachable snapshot of any execution of `getDirectorySize`. -/
theorem getDirectorySize_per_pool_bound (cs : List FsTree) (p : IoProc)
    (h : IoReach cs p) : PoolBounded maxConcurrentIo p := by
  induction h with
  | refl => exact .pool (by simp [maxConcurrentIo]) (by simp)
  | tail _ hstep ih => exact ioStep_poolBounded hstep ih

/-- Witness for the amended C6 at a concrete input. -/
theorem getDirectorySize_per_pool_bound_witness :
    PoolBounded maxConcurrentIo (.pool [FsTree.file 3, FsTree.dir []] []) :=
  getDirectorySize_per_pool_bound [FsTree.file 3, FsTree.dir []] _
    Relation.ReflTransGen.refl

/-- Lifting a step sequence into a nested in-flight slot. -/
theorem ioReach_congr {p q : IoProc} (h : Relation.ReflTransGen IoStep p q)
    (pending : List FsTree) (l r : List IoProc) :
    Relation.ReflTransGen IoStep (.pool pending (l ++ p :: r))
      (.pool pending (l ++ q :: r)) := by
  induction h with
  | refl => exact .refl
  | tail _ hstep ih => exact .tail ih (.congr hstep)

/-- A pool over `n ≤ 20` files can launch them all. -/
theorem ioReach_fill (sz : Nat) :
    ∀ (n k : Nat), k + n ≤ maxConcurrentIo →
      Relation.ReflTransGen IoStep
        (.pool (List.replicate n (FsTree.file sz)) (List.replicate k IoProc.statOp))
        (.pool [] (List.replicate (k + n) IoProc.statOp)) := by
  intro n
  induction n with
  | zero => intro k _; exact .refl
  | succ n ih =>
    intro k hk
    have hstep : IoStep
        (.pool (List.replicate (n + 1) (FsTree.file sz)) (List.replicate k IoProc.statOp))
        (.pool (List.replicate n (FsTree.file sz)) (List.replicate (k + 1) IoProc.statOp)) := by
      have h1 : List.replicate (n + 1) (FsTree.file sz)
          = FsTree.file sz :: List.replicate n (FsTree.file sz) := by
        simp [List.replicate_succ]
      have h2 : List.replicate k IoProc.statOp ++ [spawnTask (FsTree.file sz)]
          = List.replicate (k + 1) IoProc.statOp := by
        simp [spawnTask, List.replicate_succ']
      rw [h1]
      have := @IoStep.launch (FsTree.file sz)
        (List.replicate n (FsTree.file sz))
        (List.replicate k IoProc.statOp)
        (by simp; omega)
      rwa [h2] at this
    have hrest := ih (k + 1) (by omega)
    have : k + 1 + n = k + (n + 1) := by omega
    rw [this] at hrest
    exact .head hstep hrest

/-- C6 counterexample: on a directory with two subdirectories of 11 files
each, an execution of `getDirectorySize` reaches a snapshot with 22
concurrently in-flight `stat` operations — above the 20 ceiling — because
each recursive call runs its **own** `runWithConcurrencyLimit` pool
rather than being admitted into a single global pool.  (Fuel 3 exceeds
the snapshot's nesting depth, so `inFlightStats 3` is its exact count.) -/
theorem getDirectorySize_exceeds_global_cap :
    ∃ p, IoReach
        [FsTree.dir (List.replicate 11 (FsTree.file 1)),
         FsTree.dir (List.replicate 11 (FsTree.file 1))] p
      ∧ maxConcurrentIo < inFlightStats 3 p := by
  refine ⟨.pool []
      [.pool [] (List.replicate 11 IoProc.statOp),
       .pool [] (List.replicate 11 IoProc.statOp)], ?_, by decide⟩
  have h1 : IoStep
      (.pool [FsTree.dir (List.replicate 11 (FsTree.file 1)),
              FsTree.dir (List.replicate 11 (FsTree.file 1))] [])
      (.pool [FsTree.dir (List.replicate 11 (FsTree.file 1))]
              [.pool (List.replicate 11 (FsTree.file 1)) []]) := by
    have := @IoStep.launch (FsTree.dir (List.replicate 11 (FsTree.file 1)))
      [FsTree.dir (List.replicate 11 (FsTree.file 1))]
      [] (by simp [maxConcurrentIo])
    simpa [spawnTask] using this
  have h2 : IoStep
      (.pool [FsTree.dir (List.replicate 11 (FsTree.file 1))]
              [.pool (List.replicate 11 (FsTree.file 1)) []])
      (.pool [] [.pool (List.replicate 11 (FsTree.file 1)) [],
                 .pool (List.replicate 11 (FsTree.file 1)) []]) := by
    have := @IoStep.launch (FsTree.dir (List.replicate 11 (FsTree.file 1)))
      []
      [.pool (List.replicate 11 (FsTree.file 1)) []]
      (by simp [maxConcurrentIo])
    simpa [spawnTask] using this
  have hfill : Relation.ReflTransGen IoStep
      (.pool (List.replicate 11 (FsTree.file 1)) [])
      (.pool [] (List.replicate 11 IoProc.statOp)) := by
    have := ioReach_fill 1 11 0 (by simp [maxConcurrentIo])
    simpa using this
  have h3 : Relation.ReflTransGen IoStep
      (.pool [] [.pool (List.replicate 11 (FsTree.file 1)) [],
                 .pool (List.replicate 11 (FsTree.file 1)) []])
      (.pool [] [.pool [] (List.replicate 11 IoProc.statOp),
                 .pool (List.replicate 11 (FsTree.file 1)) []]) := by
    have := ioReach_congr hfill [] []
      [.pool (List.replicate 11 (FsTree.file 1)) []]
    simpa using this
  have h4 : Relation.ReflTransGen IoStep
      (.pool [] [.pool [] (List.replicate 11 IoProc.statOp),
                 .pool (List.replicate 11 (FsTree.file 1)) []])
      (.pool [] [.pool [] (List.replicate 11 IoProc.statOp),
                 .pool [] (List.replicate 11 IoProc.statOp)]) := by
    have := ioReach_congr hfill []
      [.pool [] (List.replicate 11 IoProc.statOp)] []
    simpa using this
  exact .head h1 (.head h2 (h3.trans h4))

/-! ## C9: `getItems` (`src/utils/fs.ts:100-155`)

The filesystem is modelled as an entry tree carrying the values the
`readdir`/`stat` calls would return (`statOk`/`listOk` model a throwing
call; dirent kinds other than file and directory are not used by the
repository's scanned trees and are not modelled).  Item paths are kept as
the component lists that `join(currentPath, entry.name)` accumulates
below the scanned root, so an item's depth is its component count. -/

/-- A directory entry as `getItems` probes it. -/
inductive FsEntry
  | file (size : Nat) (mtimeMs : Int) (statOk : Bool)
  | dir (mtimeMs : Int) (statOk : Bool) (listOk : Bool)
        (entries : List (String × FsEntry))

/-- `dirent.isDirectory()`. -/
def isDirE : FsEntry → Bool
  | .dir .. => true
  | .file .. => false

/-- `stat(fullPath)`: `(stats.size, stats.mtime)`, or `none` for a throw.
The size field of a directory's stats is never read by the code (it uses
`getDirectorySize` instead) and is modelled as 0. -/
def statE : FsEntry → Option (Nat × Int)
  | .file sz mt ok => if ok then some (sz, mt) else none
  | .dir mt ok _ _ => if ok then some (0, mt) else none

/-- `getDirectorySize` (`src/utils/fs.ts:65-98`) as the sum it returns: a
failing `opendir` or a call on a non-directory yields 0, a file child
contributes its size when its `stat` succeeds and 0 otherwise, a
subdirectory child contributes its recursive total.  The pool returns the
per-child sizes in completion order, but the `reduce` sum is the same for
every order, so the sum is modelled directly. -/
def dirSizeF : Nat → FsEntry → Nat
  | 0, _ => 0
  | _ + 1, .file _ _ _ => 0
  | fuel + 1, .dir _ _ listOk entries =>
    if listOk then
      (entries.map (fun e =>
        match e.2 with
        | .file sz _ sOk => if sOk then sz else 0
        | .dir .. => dirSizeF fuel e.2)).sum
    else 0

/-- The options record of `getItems` (`src/utils/fs.ts:102-110`).
`minAge = 0` and `minSize = 0` model the JavaScript falsy values
(`undefined` or `0`), under which the corresponding filter is skipped. -/
structure GetItemsOpts where
  recursive : Bool
  minAge : Nat
  minSize : Nat
  maxDepth : Nat

/-- Milliseconds per day, as in `daysOld = (Date.now() - mtime) / (1000 * 60 * 60 * 24)`. -/
def msPerDay : Int := 86400000

/-- A `CleanableItem` produced by `getItems`, with the path kept as its
components below the scanned root. -/
structure FoundItem where
  path : List String
  size : Nat
  name : String
  isDirectory : Bool
  modifiedAt : Int
deriving DecidableEq

/-- The body of `getItems`' per-entry loop (`src/utils/fs.ts:118-146`),
parameterized by the recursive call and the directory-size computation:
a throwing `stat` skips the entry; `daysOld < minAge` (as an exact
comparison: `now - mtime < minAge * msPerDay`) skips it when `minAge` is
truthy; a computed size below a truthy `minSize` skips it; otherwise the
item is pushed and, under `recursive`, a directory entry is descended
into. -/
def entryItemsCore (opts : GetItemsOpts) (now : Int)
    (recurse : FsEntry → List String → Nat → List FoundItem)
    (dsize : FsEntry → Nat) (comps : List String) (depth : Nat)
    (e : String × FsEntry) : Option (Nat × Int) → List FoundItem
  | none => []
  | some (fsize, mt) =>
    if opts.minAge ≠ 0 ∧ now - mt < (opts.minAge : Int) * msPerDay then []
    else if opts.minSize ≠ 0 ∧ (if isDirE e.2 then dsize e.2 else fsize) < opts.minSize then []
    else
      ⟨comps ++ [e.1], (if isDirE e.2 then dsize e.2 else fsize), e.1, isDirE e.2, mt⟩ ::
        (if opts.recursive ∧ isDirE e.2 then recurse e.2 (comps ++ [e.1]) (depth + 1)
         else [])

def entryItemsWith (opts : GetItemsOpts) (now : Int)
    (recurse : FsEntry → List String → Nat → List FoundItem)
    (dsize : FsEntry → Nat) (comps : List String) (depth : Nat)
    (e : String × FsEntry) : List FoundItem :=
  entryItemsCore opts now recurse dsize comps depth e (statE e.2)

/-- `processDir` (`src/utils/fs.ts:112-151`): return beyond `maxDepth` or
when `readdir` throws or the node is not a directory; otherwise process
each entry in order. -/
def processDirF (opts : GetItemsOpts) (now : Int) :
    Nat → FsEntry → List String → Nat → List FoundItem
  | 0, _, _, _ => []
  | _ + 1, .file _ _ _, _, _ => []
  | fuel + 1, .dir _ _ listOk entries, comps, depth =>
    if opts.maxDepth < depth then []
    else if listOk then
      (entries.map (entryItemsWith opts now (processDirF opts now fuel)
        (dirSizeF fuel) comps depth)).flatten
    else []

/-- `getItems` (`src/utils/fs.ts:100-155`): process the root at depth 0. -/
def getItems (opts : GetItemsOpts) (now : Int) (fuel : Nat) (root : FsEntry) :
    List FoundItem :=
  processDirF opts now fuel root [] 0

/-- The per-item guarantee of C9, as a predicate. -/
def itemWithinLimits (opts : GetItemsOpts) (now : Int) (item : FoundItem) : Prop :=
  item.path.length ≤ opts.maxDepth + 1
  ∧ (opts.minAge ≠ 0 → (opts.minAge : Int) * msPerDay ≤ now - item.modifiedAt)
  ∧ (opts.minSize ≠ 0 → opts.minSize ≤ item.size)

theorem entryItemsWith_filters (opts : GetItemsOpts) (now : Int)
    (recurse : FsEntry → List String → Nat → List FoundItem)
    (dsize : FsEntry → Nat) (comps : List String) (depth : Nat)
    (e : String × FsEntry)
    (hcd : comps.length = depth) (hdepth : depth ≤ opts.maxDepth)
    (hrec : ∀ item ∈ recurse e.2 (comps ++ [e.1]) (depth + 1),
      itemWithinLimits opts now item) :
    ∀ item ∈ entryItemsWith opts now recurse dsize comps depth e,
      itemWithinLimits opts now item := by
  intro item hmem
  unfold entryItemsWith at hmem
  rcases hstat : statE e.2 with _ | ⟨fsize, mt⟩
  · rw [hstat] at hmem
    simp [entryItemsCore] at hmem
  · rw [hstat] at hmem
    rw [show entryItemsCore opts now recurse dsize comps depth e (some (fsize, mt))
        = (if opts.minAge ≠ 0 ∧ now - mt < (opts.minAge : Int) * msPerDay then []
          else if opts.minSize ≠ 0
              ∧ (if isDirE e.2 then dsize e.2 else fsize) < opts.minSize then []
          else
            ⟨comps ++ [e.1], (if isDirE e.2 then dsize e.2 else fsize), e.1,
              isDirE e.2, mt⟩ ::
              (if opts.recursive ∧ isDirE e.2 then
                recurse e.2 (comps ++ [e.1]) (depth + 1)
              else [])) from rfl] at hmem
    by_cases hage : opts.minAge ≠ 0 ∧ now - mt < (opts.minAge : Int) * msPerDay
    · rw [if_pos hage] at hmem
      simp at hmem
    · rw [if_neg hage] at hmem
      by_cases hsize : opts.minSize ≠ 0
          ∧ (if isDirE e.2 then dsize e.2 else fsize) < opts.minSize
      · rw [if_pos hsize] at hmem
        simp at hmem
      · rw [if_neg hsize] at hmem
        rcases List.mem_cons.mp hmem with rfl | hmem
        · refine ⟨by simp [hcd]; omega, ?_, ?_⟩
          · intro hma
            simp only [not_and, not_lt] at hage
            exact hage hma
          · intro hms
            simp only [not_and, not_lt] at hsize
            exact hsize hms
        · by_cases hr : opts.recursive ∧ isDirE e.2 = true
          · rw [if_pos hr] at hmem
            exact hrec item hmem
          · rw [if_neg hr] at hmem
            simp at hmem

/-- C9: every item produced by `getItems` — for any tree, clock, options
and fuel — lies at most one level below the deepest directory descended
into (component count at most `maxDepth + 1`), and satisfies the age and
size filters at its own level whenever they are enabled. -/
theorem getItems_respects_filters (opts : GetItemsOpts) (now : Int)
    (fuel : Nat) (root : FsEntry) :
    ∀ item ∈ getItems opts now fuel root, itemWithinLimits opts now item := by
  suffices h : ∀ (fuel : Nat) (node : FsEntry) (comps : List String) (depth : Nat),
      comps.length = depth →
      ∀ item ∈ processDirF opts now fuel node comps depth,
        itemWithinLimits opts now item by
    intro item hmem
    exact h fuel root [] 0 rfl item hmem
  intro fuel
  induction fuel with
  | zero =>
    intro node comps depth _ item hmem
    simp [processDirF] at hmem
  | succ fuel ih =>
    intro node comps depth hcd item hmem
    cases node with
    | file _ _ _ => simp [processDirF] at hmem
    | dir mt sOk listOk entries =>
      by_cases hdepth : opts.maxDepth < depth
      · simp [processDirF, hdepth] at hmem
      · by_cases hlist : listOk = true
        · rw [processDirF, if_neg hdepth, if_pos hlist] at hmem
          rw [List.mem_flatten] at hmem
          obtain ⟨inner, hinner, hitem⟩ := hmem
          rw [List.mem_map] at hinner
          obtain ⟨e, _, rfl⟩ := hinner
          refine entryItemsWith_filters opts now _ _ comps depth e hcd
            (by omega) ?_ item hitem
          intro it hit
          exact ih e.2 (comps ++ [e.1]) (depth + 1) (by simp [hcd]) it hit
        · have hlist' : listOk = false := by
            cases listOk
            · rfl
            · exact absurd rfl hlist
          rw [processDirF, if_neg hdepth, hlist'] at hmem
          simp at hmem

/-- Witness for C9 at a concrete tree: a recursive scan with
`minAge = 2` days, `minSize = 10` bytes, `maxDepth = 1` over a root
holding an old large file and a subdirectory. -/
theorem getItems_respects_filters_witness :
    (⟨["old.bin"], 50, "old.bin", false, 0⟩ : FoundItem)
        ∈ getItems ⟨true, 2, 10, 1⟩ (3 * 86400000) 5
            (.dir 0 true true
              [("old.bin", .file 50 0 true),
               ("new.bin", .file 50 (3 * 86400000) true),
               ("small.bin", .file 3 0 true),
               ("sub", .dir 0 true true [("inner.bin", .file 40 0 true)])])
    ∧ itemWithinLimits ⟨true, 2, 10, 1⟩ (3 * 86400000)
        ⟨["old.bin"], 50, "old.bin", false, 0⟩ :=
  ⟨by decide,
    getItems_respects_filters ⟨true, 2, 10, 1⟩ (3 * 86400000) 5
      (.dir 0 true true
        [("old.bin", .file 50 0 true),
         ("new.bin", .file 50 (3 * 86400000) true),
         ("small.bin", .file 3 0 true),
         ("sub", .dir 0 true true [("inner.bin", .file 40 0 true)])])
      ⟨["old.bin"], 50, "old.bin", false, 0⟩ (by decide)⟩

/-! ## C8: the duplicate detector's retention policy

`src/scanners/duplicates.ts` is absent from the source snapshot (only its
test file is present); the detector is modelled from the spec (§4.3): a
two-phase size-bucket → hash grouping over already-enumerated files, and
within each confirmed group the most recently modified item is kept, with
equal timestamps broken by lexicographic path order. -/

/-- An enumerated candidate file: its path, exact byte size, full content
hash and modification time. -/
structure DupFile where
  path : String
  size : Nat
  hash : String
  mtimeMs : Int
deriving DecidableEq

/-- A confirmed duplicate group (spec §3, `DuplicateGroup`). -/
structure DupGroup where
  items : List DupFile
  keptItem : DupFile
  reclaimable : List DupFile
deriving DecidableEq

/-- Modelled from the spec: `a` is preferred over `b` for retention when
it is more recently modified, or equally recent with the lexicographically
smaller path. -/
def newerKept (a b : DupFile) : Bool :=
  decide (b.mtimeMs < a.mtimeMs)
    || (decide (a.mtimeMs = b.mtimeMs) && decide (a.path < b.path))

/-- Modelled from the spec: the retained item of a group, as a fold over
the remaining members. -/
def pickKept (f : DupFile) (fs : List DupFile) : DupFile :=
  fs.foldl (fun best x => if newerKept x best then x else best) f

/-- `k` is at least as preferred as `x`: more recent, or equally recent
with a path that is lexicographically no larger. -/
def dominates (k x : DupFile) : Prop :=
  x.mtimeMs < k.mtimeMs ∨ (x.mtimeMs = k.mtimeMs ∧ k.path ≤ x.path)

theorem dominates_refl (k : DupFile) : dominates k k := Or.inr ⟨rfl, le_refl _⟩

theorem dominates_of_newerKept {x b : DupFile} (h : newerKept x b = true) :
    dominates x b := by
  unfold newerKept at h
  rcases Bool.or_eq_true_iff.mp h with h1 | h1
  · exact Or.inl (of_decide_eq_true h1)
  · obtain ⟨h2, h3⟩ := Bool.and_eq_true_iff.mp h1
    exact Or.inr ⟨(of_decide_eq_true h2).symm, le_of_lt (of_decide_eq_true h3)⟩

theorem dominates_of_not_newerKept {x b : DupFile} (h : newerKept x b = false) :
    dominates b x := by
  unfold newerKept at h
  rw [Bool.or_eq_false_iff] at h
  obtain ⟨h1, h2⟩ := h
  have hle : x.mtimeMs ≤ b.mtimeMs := not_lt.mp (of_decide_eq_false h1)
  rcases lt_or_eq_of_le hle with hlt | heq
  · exact Or.inl hlt
  · rw [Bool.and_eq_false_iff] at h2
    rcases h2 with h2 | h2
    · exact absurd heq (of_decide_eq_false h2)
    · exact Or.inr ⟨heq, not_lt.mp (of_decide_eq_false h2)⟩

theorem dominates_trans {k b y : DupFile} (h1 : dominates k b) (h2 : dominates b y) :
    dominates k y := by
  rcases h1 with h1 | ⟨h1, h1p⟩ <;> rcases h2 with h2 | ⟨h2, h2p⟩
  · exact Or.inl (lt_trans h2 h1)
  · exact Or.inl (h2 ▸ h1)
  · exact Or.inl (h1 ▸ h2)
  · exact Or.inr ⟨h2.trans h1, le_trans h1p h2p⟩

/-- The fold of `pickKept` lands on a group member and dominates every
member. -/
theorem pickKept_spec (f : DupFile) (fs : List DupFile) :
    (pickKept f fs = f ∨ pickKept f fs ∈ fs)
    ∧ ∀ x, (x = f ∨ x ∈ fs) → dominates (pickKept f fs) x := by
  induction fs generalizing f with
  | nil =>
    refine ⟨Or.inl rfl, ?_⟩
    intro x hx
    rcases hx with rfl | hx
    · exact dominates_refl _
    · simp at hx
  | cons y ys ih =>
    have hfold : pickKept f (y :: ys)
        = pickKept (if newerKept y f then y else f) ys := by
      simp [pickKept, List.foldl_cons]
    by_cases hyf : newerKept y f = true
    · obtain ⟨ihmem, ihdom⟩ := ih y
      have hg : (if newerKept y f = true then y else f) = y := if_pos hyf
      rw [hfold, hg]
      constructor
      · rcases ihmem with heq | hmem
        · exact Or.inr (by rw [heq]; exact List.mem_cons_self y ys)
        · exact Or.inr (List.mem_cons_of_mem y hmem)
      · intro x hx
        have hdomy : dominates (pickKept y ys) y := ihdom y (Or.inl rfl)
        rcases hx with rfl | hx
        · exact dominates_trans hdomy (dominates_of_newerKept hyf)
        · rcases List.mem_cons.mp hx with rfl | hx
          · exact hdomy
          · exact ihdom x (Or.inr hx)
    · obtain ⟨ihmem, ihdom⟩ := ih f
      have hg : (if newerKept y f = true then y else f) = f := if_neg hyf
      rw [hfold, hg]
      constructor
      · rcases ihmem with heq | hmem
        · exact Or.inl heq
        · exact Or.inr (List.mem_cons_of_mem y hmem)
      · intro x hx
        have hdomf : dominates (pickKept f ys) f := ihdom f (Or.inl rfl)
        rcases hx with rfl | hx
        · exact hdomf
        · rcases List.mem_cons.mp hx with rfl | hx
          · exact dominates_trans hdomf
              (dominates_of_not_newerKept (by simpa using hyf))
          · exact ihdom x (Or.inr hx)

/-- Modelled from the spec: a confirmed candidate list becomes a
`DuplicateGroup` retaining the preferred member; `reclaimable` is the
group minus the kept item. -/
def mkGroup : List DupFile → Option DupGroup
  | [] => none
  | f :: fs => some ⟨f :: fs, pickKept f fs, (f :: fs).erase (pickKept f fs)⟩

/-- Modelled from the spec (phase 1): bucket the enumerated files by
exact byte size. -/
def sizeBuckets (files : List DupFile) : List (List DupFile) :=
  ((files.map (fun f => f.size)).dedup).map
    (fun s => files.filter (fun f => f.size == s))

/-- Modelled from the spec (phase 2): sub-group a bucket by full content
hash. -/
def hashGroups (bucket : List DupFile) : List (List DupFile) :=
  ((bucket.map (fun f => f.hash)).dedup).map
    (fun h => bucket.filter (fun f => f.hash == h))

/-- Modelled from the spec: `findDuplicates` — keep the size buckets and
hash sub-groups with at least two members, and apply the retention
policy to each confirmed group. -/
def findDuplicates (files : List DupFile) : List DupGroup :=
  (((sizeBuckets files).filter (fun b => decide (2 ≤ b.length))).map
    (fun b => ((hashGroups b).filter (fun g => decide (2 ≤ g.length))).filterMap
      mkGroup)).flatten

/-- C8: in every confirmed group returned by the detector, `keptItem` is
a group member that every member is dominated by — strictly older, or
equally recent with `keptItem` holding the lexicographically smallest
path among the tied members — and `reclaimable` is exactly the group
minus the kept item. -/
theorem findDuplicates_retention (files : List DupFile) :
    ∀ g ∈ findDuplicates files,
      g.keptItem ∈ g.items
      ∧ 2 ≤ g.items.length
      ∧ (∀ x ∈ g.items, x.mtimeMs < g.keptItem.mtimeMs
          ∨ (x.mtimeMs = g.keptItem.mtimeMs ∧ g.keptItem.path ≤ x.path))
      ∧ g.reclaimable = g.items.erase g.keptItem := by
  intro g hg
  unfold findDuplicates at hg
  rw [List.mem_flatten] at hg
  obtain ⟨inner, hinner, hgmem⟩ := hg
  rw [List.mem_map] at hinner
  obtain ⟨b, _, rfl⟩ := hinner
  rw [List.mem_filterMap] at hgmem
  obtain ⟨l, hl, hmk⟩ := hgmem
  rw [List.mem_filter] at hl
  obtain ⟨_, hlen⟩ := hl
  have hlen2 : 2 ≤ l.length := of_decide_eq_true hlen
  rcases l with _ | ⟨f, fs⟩
  · simp [mkGroup] at hmk
  · have hgdef : g = ⟨f :: fs, pickKept f fs, (f :: fs).erase (pickKept f fs)⟩ := by
      have h := hmk
      simp only [mkGroup, Option.some.injEq] at h
      exact h.symm
    rw [hgdef]
    obtain ⟨hmem, hdom⟩ := pickKept_spec f fs
    refine ⟨?_, by simpa using hlen2, ?_, rfl⟩
    · show pickKept f fs ∈ f :: fs
      rcases hmem with heq | hmem
      · rw [heq]
        exact List.mem_cons_self f fs
      · exact List.mem_cons_of_mem f hmem
    · intro x hx
      exact hdom x (List.mem_cons.mp hx)

/-- Witness for C8: three identical files with modification times
1 < 2 < 3 yield exactly one group keeping the newest and reclaiming the
other two. -/
theorem findDuplicates_retention_witness :
    findDuplicates
        [⟨"C:\\d\\a.txt", 2048, "h", 1⟩, ⟨"C:\\d\\b.txt", 2048, "h", 2⟩,
         ⟨"C:\\d\\c.txt", 2048, "h", 3⟩]
      = [⟨[⟨"C:\\d\\a.txt", 2048, "h", 1⟩, ⟨"C:\\d\\b.txt", 2048, "h", 2⟩,
           ⟨"C:\\d\\c.txt", 2048, "h", 3⟩],
          ⟨"C:\\d\\c.txt", 2048, "h", 3⟩,
          [⟨"C:\\d\\a.txt", 2048, "h", 1⟩, ⟨"C:\\d\\b.txt", 2048, "h", 2⟩]⟩]
    ∧ ((⟨[⟨"C:\\d\\a.txt", 2048, "h", 1⟩, ⟨"C:\\d\\b.txt", 2048, "h", 2⟩,
           ⟨"C:\\d\\c.txt", 2048, "h", 3⟩],
          ⟨"C:\\d\\c.txt", 2048, "h", 3⟩,
          [⟨"C:\\d\\a.txt", 2048, "h", 1⟩, ⟨"C:\\d\\b.txt", 2048, "h", 2⟩]⟩ : DupGroup).keptItem
        ∈ (⟨[⟨"C:\\d\\a.txt", 2048, "h", 1⟩, ⟨"C:\\d\\b.txt", 2048, "h", 2⟩,
           ⟨"C:\\d\\c.txt", 2048, "h", 3⟩],
          ⟨"C:\\d\\c.txt", 2048, "h", 3⟩,
          [⟨"C:\\d\\a.txt", 2048, "h", 1⟩, ⟨"C:\\d\\b.txt", 2048, "h", 2⟩]⟩ : DupGroup).items
      ∧ 2 ≤ (⟨[⟨"C:\\d\\a.txt", 2048, "h", 1⟩, ⟨"C:\\d\\b.txt", 2048, "h", 2⟩,
           ⟨"C:\\d\\c.txt", 2048, "h", 3⟩],
          ⟨"C:\\d\\c.txt", 2048, "h", 3⟩,
          [⟨"C:\\d\\a.txt", 2048, "h", 1⟩, ⟨"C:\\d\\b.txt", 2048, "h", 2⟩]⟩ : DupGroup).items.length
      ∧ (∀ x ∈ (⟨[⟨"C:\\d\\a.txt", 2048, "h", 1⟩, ⟨"C:\\d\\b.txt", 2048, "h", 2⟩,
           ⟨"C:\\d\\c.txt", 2048, "h", 3⟩],
          ⟨"C:\\d\\c.txt", 2048, "h", 3⟩,
          [⟨"C:\\d\\a.txt", 2048, "h", 1⟩, ⟨"C:\\d\\b.txt", 2048, "h", 2⟩]⟩ : DupGroup).items,
          x.mtimeMs < (3 : Int)
          ∨ (x.mtimeMs = (3 : Int) ∧ ("C:\\d\\c.txt" : String) ≤ x.path))
      ∧ (⟨[⟨"C:\\d\\a.txt", 2048, "h", 1⟩, ⟨"C:\\d\\b.txt", 2048, "h", 2⟩,
           ⟨"C:\\d\\c.txt", 2048, "h", 3⟩],
          ⟨"C:\\d\\c.txt", 2048, "h", 3⟩,
          [⟨"C:\\d\\a.txt", 2048, "h", 1⟩, ⟨"C:\\d\\b.txt", 2048, "h", 2⟩]⟩ : DupGroup).reclaimable
        = (⟨[⟨"C:\\d\\a.txt", 2048, "h", 1⟩, ⟨"C:\\d\\b.txt", 2048, "h", 2⟩,
           ⟨"C:\\d\\c.txt", 2048, "h", 3⟩],
          ⟨"C:\\d\\c.txt", 2048, "h", 3⟩,
          [⟨"C:\\d\\a.txt", 2048, "h", 1⟩, ⟨"C:\\d\\b.txt", 2048, "h", 2⟩]⟩ : DupGroup).items.erase
            ⟨"C:\\d\\c.txt", 2048, "h", 3⟩) := by
  constructor
  · decide
  · exact findDuplicates_retention
      [⟨"C:\\d\\a.txt", 2048, "h", 1⟩, ⟨"C:\\d\\b.txt", 2048, "h", 2⟩,
       ⟨"C:\\d\\c.txt", 2048, "h", 3⟩] _ (by decide)

end WinCleanCli
